import Mathlib

/-!
Verification of the gr-dvbs2rx BCH codec core and physical-layer frequency
synchronizer against their natural-language specification.

The development shallowly embeds:

* the DVB-S2 primitive-polynomial selection performed by `init_modules` in
  `src/bench/fec/src/bench_bch.cc` (translated directly from the source);
* the BCH encoder/decoder pipeline of spec sections 4.3 and 4.4 (the codec
  implementations dispatched to by the benchmark are not part of the shown
  sources, so the pipeline is modelled from the specification's words);
* the `freq_sync` state machine of spec section 4.5 together with the inline
  accessors of `src/lib/pl_freq_sync.h` (the method bodies live outside the
  shown sources and are modelled from the specification's words).
-/

open Polynomial

/-! ## Primitive polynomial selection (from `init_modules`, bench_bch.cc) -/

/-- Primitive polynomial coefficient list chosen by `init_modules` in
`bench_bch.cc`, little-endian by power, translated verbatim from the source:
`if (p.N < 16200)` pick g1(x) of Table 6b, else g1(x) of Table 6a. -/
def bchPrimPoly (N : Nat) : List Nat :=
  if N < 16200 then
    [1, 1, 0, 1, 0, 1, 0, 0, 0, 0, 0, 0, 0, 0, 1]
  else
    [1, 0, 1, 1, 0, 1, 0, 0, 0, 0, 0, 0, 0, 0, 0, 0, 1]

/-- Fuel-based rendering of the loop `while (n <= x) n <<= 1;` with running
value `n`; the fuel only bounds the recursion and is chosen large enough to
never be exhausted. -/
def nextPow2Go (x : Nat) : Nat → Nat → Nat
  | 0, n => n
  | fuel + 1, n => if n ≤ x then nextPow2Go x fuel (2 * n) else n

/-- Modelled from the spec: the external helper `tools::next_power_of_2` used
by `init_modules` (the aff3ct library is not part of the shown sources). It
returns the smallest power of two strictly greater than `x`, matching the
`n = 1; while (n <= x) n <<= 1;` loop semantics. -/
def nextPowerOf2 (x : Nat) : Nat :=
  nextPow2Go x (x + 1) 1

/-- The mother-code length `N_p2_1 = next_power_of_2(N) - 1` computed by
`init_modules` and passed to the BCH polynomial generator. -/
def motherCodeLen (N : Nat) : Nat :=
  nextPowerOf2 N - 1

/-- Degree of the selected primitive polynomial (index of its last, highest
power coefficient). -/
def bchPrimPolyDegree (N : Nat) : Nat :=
  (bchPrimPoly N).length - 1

/-- Interpretation of a little-endian coefficient list as a binary polynomial,
by Horner evaluation over GF(2). -/
noncomputable def listToPoly (l : List Nat) : Polynomial (ZMod 2) :=
  l.foldr (fun a p => C (a : ZMod 2) + X * p) 0

/-! ## Frequency synchronizer (`freq_sync`) model

The public interface and inline accessors come from `src/lib/pl_freq_sync.h`.
The estimator bodies are not part of the shown sources, so they are modelled
from the specification (section 4.5). -/

/-- Fine estimator ceiling `fine_foffset_corr_range = 3.268e-4` declared at
`pl_freq_sync.h:15`. -/
noncomputable def fine_foffset_corr_range : ℝ := 3.268e-4

/-- Modelled from the spec: the known reference sequences used by the
data-aided estimators (SOF symbols, the PLHEADER sequence reconstructed from a
PLSC dataword, and the constant pilot symbol); their concrete values are not
part of the shown sources, so the model is parametrized over them. -/
structure FreqSyncRefs where
  sofRef : List ℂ
  plheaderRef : Nat → List ℂ
  pilotRef : ℂ

/-- Modelled from the spec: the `freq_sync` state (spec section 3, data model),
with the members of the private section of `pl_freq_sync.h`.  The fields
`plheader_populated` and `pilots_populated` are ghost state recording which
entries of `angle_pilot` were populated for the current frame, used to express
the population precondition of `estimate_fine_pilot_mode`. -/
structure FreqSyncState where
  period : Nat
  i_frame : Nat
  coarse_foffset : ℝ
  coarse_corrected : Bool
  fine_foffset : ℝ
  fine_est_ready : Bool
  w_angle_avg : ℝ
  angle_pilot : List ℝ
  pilot_corr : List ℂ
  pp_plheader : List ℂ
  plheader_populated : Bool
  pilots_populated : Nat

/-- Modelled from the spec: the freshly constructed synchronizer.  The
`angle_pilot` buffer is allocated with the 22 entries `[0..21]` declared by the
spec's data model (PLHEADER phase at index 0, pilot-block phases at 1..21). -/
def initState (period : Nat) : FreqSyncState where
  period := period
  i_frame := 0
  coarse_foffset := 0
  coarse_corrected := false
  fine_foffset := 0
  fine_est_ready := false
  w_angle_avg := 0
  angle_pilot := List.replicate 22 0
  pilot_corr := []
  pp_plheader := List.replicate 90 0
  plheader_populated := false
  pilots_populated := 0

/-- Conjugate-multiply received symbols by their known reference, removing the
modulation (spec section 4.5, step 1 of the coarse estimator). -/
def derotated (ref inp : List ℂ) : List ℂ :=
  List.zipWith (fun r x => x * (starRingEnd ℂ) r) ref inp

/-- Lag-1 autocorrelations of a derotated sequence (spec section 4.5, step 2):
`L = len - 1` products of each symbol with the conjugate of its predecessor. -/
def lag1Autocorr (z : List ℂ) : List ℂ :=
  List.zipWith (fun a b => b * (starRingEnd ℂ) a) z z.tail

/-- Unbiased Luise-and-Reggiannini triangular weight
`w_k = (3/(L(L^2-1))) * [L^2 - (2k - L)^2]` (spec section 4.5, step 3). -/
noncomputable def lrWeight (L k : Nat) : ℝ :=
  (3 / ((L : ℝ) * ((L : ℝ) ^ 2 - 1))) * ((L : ℝ) ^ 2 - (2 * (k : ℝ) - (L : ℝ)) ^ 2)

/-- Weighted angle sum over accumulated autocorrelations, divided by `2 * pi`,
giving the normalized coarse frequency offset (spec section 4.5, step 3). -/
noncomputable def coarseEstOf (acc : List ℂ) : ℝ :=
  (((List.range acc.length).map
      (fun k => lrWeight acc.length k * Complex.arg (acc.getD k 0))).sum) / (2 * Real.pi)

/-- The autocorrelation evidence accumulated by one `estimate_coarse` call:
the window restarts whenever `i_frame = 0`. -/
def coarseAccum (refs : FreqSyncRefs) (s : FreqSyncState)
    (inp : List ℂ) (full : Bool) (plsc : Nat) : List ℂ :=
  let ref := if full then refs.plheaderRef plsc else refs.sofRef
  let cur := lag1Autocorr (derotated ref inp)
  if s.i_frame = 0 then cur else List.zipWith (· + ·) s.pilot_corr cur

/-- The coarse frequency offset value computed on the `period`-th accumulation
of an `estimate_coarse` window. -/
noncomputable def coarseEstimateValue (refs : FreqSyncRefs) (s : FreqSyncState)
    (inp : List ℂ) (full : Bool) (plsc : Nat) : ℝ :=
  coarseEstOf (coarseAccum refs s inp full plsc)

/-- Modelled from the spec: `freq_sync::estimate_coarse`
(`pl_freq_sync.h:158`; body not in the shown sources).  Accumulates one frame
of autocorrelation evidence; on the `period`-th accumulation it refreshes
`coarse_foffset`, wraps `i_frame`, latches `coarse_corrected` once the estimate
magnitude falls below `fine_foffset_corr_range`, and returns true; otherwise it
just advances `i_frame` and returns false.  The PLSC selects the full-PLHEADER
reference and is ignored when `full = false`. -/
noncomputable def estimate_coarse (refs : FreqSyncRefs) (s : FreqSyncState)
    (inp : List ℂ) (full : Bool) (plsc : Nat) : FreqSyncState × Bool :=
  let acc := coarseAccum refs s inp full plsc
  if s.i_frame + 1 = s.period then
    let v := coarseEstOf acc
    ({ s with
        i_frame := 0
        pilot_corr := acc
        coarse_foffset := v
        coarse_corrected := s.coarse_corrected || decide (|v| < fine_foffset_corr_range) },
      true)
  else
    ({ s with i_frame := s.i_frame + 1, pilot_corr := acc }, false)

/-- Phase of a received segment against its known reference: derotate, sum the
residual, take the principal-value angle (spec section 4.5). -/
noncomputable def phaseOf (ref inp : List ℂ) : ℝ :=
  Complex.arg (derotated ref inp).sum

/-- Modelled from the spec: `freq_sync::estimate_sof_phase`
(`pl_freq_sync.h:165`; body not in the shown sources).  Pure phase estimate of
the SOF segment; stores nothing. -/
noncomputable def estimate_sof_phase (refs : FreqSyncRefs) (inp : List ℂ) : ℝ :=
  phaseOf refs.sofRef inp

/-- Modelled from the spec: `freq_sync::estimate_plheader_phase`
(`pl_freq_sync.h:177`; body not in the shown sources).  Estimates the PLHEADER
phase and stores it into `angle_pilot[0]`. -/
noncomputable def estimate_plheader_phase (refs : FreqSyncRefs) (s : FreqSyncState)
    (inp : List ℂ) (plsc : Nat) : FreqSyncState × ℝ :=
  let phi := phaseOf (refs.plheaderRef plsc) inp
  ({ s with angle_pilot := s.angle_pilot.set 0 phi, plheader_populated := true }, phi)

/-- Phase estimate of pilot block `i_blk`: the input buffer holds the PLHEADER
in its first 90 positions followed by the consecutive 36-symbol pilot blocks
(note on `pl_freq_sync.h:185`). -/
noncomputable def pilotBlockPhase (refs : FreqSyncRefs) (inp : List ℂ) (i_blk : Nat) : ℝ :=
  Complex.arg (((inp.drop (90 + 36 * i_blk)).take 36).map
    (fun x => x * (starRingEnd ℂ) refs.pilotRef)).sum

/-- Modelled from the spec: `freq_sync::estimate_pilot_phase`
(`pl_freq_sync.h:192`; body not in the shown sources).  Estimates the phase of
pilot block `i_blk` and stores it into `angle_pilot[i_blk + 1]`. -/
noncomputable def estimate_pilot_phase (refs : FreqSyncRefs) (s : FreqSyncState)
    (inp : List ℂ) (i_blk : Nat) : FreqSyncState :=
  { s with
      angle_pilot := s.angle_pilot.set (i_blk + 1) (pilotBlockPhase refs inp i_blk)
      pilots_populated := max s.pilots_populated (i_blk + 1) }

/-- Principal value of an angle, wrapped into `(-pi, pi]`. -/
noncomputable def principalValue (theta : ℝ) : ℝ :=
  theta - 2 * Real.pi * (Int.ceil (theta / (2 * Real.pi) - 1 / 2) : ℝ)

/-- Symbol span separating consecutive phase-estimation segments: 1440 + 90
between PLHEADER and first pilot block, 1440 + 36 between pilot blocks (spec
section 4.5). -/
def segSpan (i : Nat) : Nat :=
  if i = 0 then 1530 else 1476

/-- Modelled from the spec: the fine frequency offset computed from the
populated pilot angles: consecutive phase differences are wrapped into
`(-pi, pi]`, weighted by the inverse of the segment span, averaged, and
divided by `2 * pi` (spec section 4.5). -/
noncomputable def fineEstimateValue (angles : List ℝ) : ℝ :=
  let diffs := List.zipWith (fun a b => b - a) angles angles.tail
  (((List.range diffs.length).map
      (fun i => principalValue (diffs.getD i 0) / (segSpan i : ℝ))).sum)
    / (2 * Real.pi * (diffs.length : ℝ))

/-- Modelled from the spec: `freq_sync::estimate_fine_pilot_mode`
(`pl_freq_sync.h:206`; body not in the shown sources).  Preconditions (spec
section 4.5): `coarse_corrected` is true, `n_pilot_blks >= 1`, and
`angle_pilot[0..n_pilot_blks]` populated for the current frame.  A violation is
a fatal programmer error, modelled as `none`; under the preconditions the call
refreshes `fine_foffset` and sets `fine_est_ready`. -/
noncomputable def estimate_fine_pilot_mode (s : FreqSyncState) (n_pilot_blks : Nat) :
    Option FreqSyncState :=
  if s.coarse_corrected = true ∧ 1 ≤ n_pilot_blks ∧ n_pilot_blks ≤ s.pilots_populated
      ∧ s.plheader_populated = true then
    some { s with
            fine_foffset := fineEstimateValue (s.angle_pilot.take (n_pilot_blks + 1))
            fine_est_ready := true }
  else
    none

/-- Modelled from the spec: `freq_sync::derotate_plheader`
(`pl_freq_sync.h:233`; body not in the shown sources).  Rotates the input
PLHEADER by the negative of the PLHEADER phase estimate; in open loop it
additionally compensates `e^(-j 2 pi coarse_foffset k)` for `k` in `[0, 90)`. -/
noncomputable def derotate_plheader (s : FreqSyncState) (inp : List ℂ)
    (open_loop : Bool) : FreqSyncState :=
  let rot := Complex.exp (-(Complex.I * (s.angle_pilot.getD 0 0 : ℝ)))
  let out :=
    if open_loop then
      (List.range 90).map (fun k =>
        inp.getD k 0 * rot *
          Complex.exp (-(Complex.I * (2 * Real.pi * s.coarse_foffset * (k : ℝ)))))
    else
      (List.range 90).map (fun k => inp.getD k 0 * rot)
  { s with pp_plheader := out }

/-- Accessor `freq_sync::get_plheader_phase` (`pl_freq_sync.h:243`, inline in the
source): returns `angle_pilot[0]`. -/
def get_plheader_phase (s : FreqSyncState) : ℝ :=
  s.angle_pilot.getD 0 0

/-- Accessor `freq_sync::get_pilot_phase` (`pl_freq_sync.h:250`, inline in the source):
returns `angle_pilot[i_blk + 1]` with no range check. -/
def get_pilot_phase (s : FreqSyncState) (i_blk : Nat) : ℝ :=
  s.angle_pilot.getD (i_blk + 1) 0

/-- Whether the unchecked read performed by `get_pilot_phase` falls within the
bounds of the `angle_pilot` buffer. -/
def pilotPhaseReadInBounds (s : FreqSyncState) (i_blk : Nat) : Prop :=
  i_blk + 1 < s.angle_pilot.length

/-- Accessor `freq_sync::get_coarse_foffset` (`pl_freq_sync.h:260`, inline). -/
def get_coarse_foffset (s : FreqSyncState) : ℝ :=
  s.coarse_foffset

/-- Accessor `freq_sync::get_fine_foffset` (`pl_freq_sync.h:270`, inline). -/
def get_fine_foffset (s : FreqSyncState) : ℝ :=
  s.fine_foffset

/-- Accessor `freq_sync::is_coarse_corrected` (`pl_freq_sync.h:281`, inline). -/
def is_coarse_corrected (s : FreqSyncState) : Bool :=
  s.coarse_corrected

/-- Accessor `freq_sync::has_fine_foffset_est` (`pl_freq_sync.h:291`, inline). -/
def has_fine_foffset_est (s : FreqSyncState) : Bool :=
  s.fine_est_ready

/-- One public operation of the synchronizer, for reasoning about arbitrary
call sequences. -/
inductive FSOp where
  | coarse (inp : List ℂ) (full : Bool) (plsc : Nat)
  | sofPhase (inp : List ℂ)
  | plheaderPhase (inp : List ℂ) (plsc : Nat)
  | pilotPhase (inp : List ℂ) (i_blk : Nat)
  | finePilot (n_pilot_blks : Nat)
  | derot (inp : List ℂ) (open_loop : Bool)

/-- State transition of one public operation (a failed
`estimate_fine_pilot_mode` precondition aborts, leaving the state unchanged). -/
noncomputable def runOp (refs : FreqSyncRefs) (s : FreqSyncState) : FSOp → FreqSyncState
  | .coarse inp full plsc => (estimate_coarse refs s inp full plsc).1
  | .sofPhase _ => s
  | .plheaderPhase inp plsc => (estimate_plheader_phase refs s inp plsc).1
  | .pilotPhase inp i_blk => estimate_pilot_phase refs s inp i_blk
  | .finePilot n => (estimate_fine_pilot_mode s n).getD s
  | .derot inp ol => derotate_plheader s inp ol

/-- Run a sequence of public operations. -/
noncomputable def runOps (refs : FreqSyncRefs) (s : FreqSyncState)
    (ops : List FSOp) : FreqSyncState :=
  ops.foldl (runOp refs) s

/-- Trivial reference sequences used to instantiate witnesses. -/
def refsTrivial : FreqSyncRefs :=
  ⟨[], fun _ => [], 1⟩

/-- A state in which the coarse-corrected flag has already latched. -/
def sLatched : FreqSyncState :=
  { initState 1 with coarse_corrected := true }

/-- State reached after `k` successive `estimate_coarse` calls on a freshly
constructed synchronizer, the `k`-th call receiving arguments `ins k`. -/
noncomputable def coarseCallState (refs : FreqSyncRefs) (period : Nat)
    (ins : Nat → List ℂ × Bool × Nat) : Nat → FreqSyncState
  | 0 => initState period
  | k + 1 =>
      (estimate_coarse refs (coarseCallState refs period ins k)
        (ins k).1 (ins k).2.1 (ins k).2.2).1

/-- Flag returned by the `(k+1)`-th `estimate_coarse` call of the sequence. -/
noncomputable def coarseCallRet (refs : FreqSyncRefs) (period : Nat)
    (ins : Nat → List ℂ × Bool × Nat) (k : Nat) : Bool :=
  (estimate_coarse refs (coarseCallState refs period ins k)
    (ins k).1 (ins k).2.1 (ins k).2.2).2

/-- Trivial call-argument sequence used to instantiate witnesses. -/
def insTrivial : Nat → List ℂ × Bool × Nat :=
  fun _ => ([], false, 0)

/-- A state satisfying the preconditions of `estimate_fine_pilot_mode`:
coarse-corrected, with the PLHEADER phase and two pilot-block phases
populated. -/
def sFineReady : FreqSyncState :=
  { initState 1 with
      coarse_corrected := true
      pilots_populated := 2
      plheader_populated := true }

/-- A state whose `angle_pilot` buffer holds 23 entries (indices 0..22). -/
def sPilot23 : FreqSyncState :=
  { initState 1 with angle_pilot := List.replicate 23 0 }

/-! ## BCH codec model (spec sections 4.3 and 4.4)

The codec implementations dispatched to by `BchEncoder::encode` and
`BchDecoder::decode` in `bench_bch.cc` are not part of the shown sources, so
encoder and decoder are modelled from the specification's words.  Messages and
codewords are binary polynomials (coefficient `j` = bit `j`); the field
`GF(2^m)` with its chosen element `α` is a parameter of the model. -/

/-- Modelled from the spec: systematic BCH encoding (section 4.3).  The
message is shifted into the high positions of `x^(N-K) * m(x)` and the parity
bits are the remainder modulo the generator: `c = x^r m + (x^r m mod g)`.  A
total function of its input; no failure. -/
noncomputable def bchEncode (g : Polynomial (ZMod 2)) (r : Nat)
    (m : Polynomial (ZMod 2)) : Polynomial (ZMod 2) :=
  X ^ r * m + (X ^ r * m) %ₘ g

/-- The odd root exponents `1, 3, ..., 2t-1` of the BCH code. -/
def oddIdxs (t : Nat) : List Nat :=
  (List.range t).map (fun k => 2 * k + 1)

/-- Modelled from the spec: syndrome computation (section 4.4, step 1):
`S_i = r(α^i)` over `GF(2^m)` for each odd `i` up to `2t-1`. -/
noncomputable def syndromesOf (F : Type) [Field F] [Algebra (ZMod 2) F] (α : F)
    (t : Nat) (rx : Polynomial (ZMod 2)) : List F :=
  (oddIdxs t).map (fun i => aeval (α ^ i) rx)

/-- Whether every syndrome of `rx` vanishes. -/
noncomputable def synAllZero (F : Type) [Field F] [Algebra (ZMod 2) F] [DecidableEq F]
    (α : F) (t : Nat) (rx : Polynomial (ZMod 2)) : Bool :=
  (syndromesOf F α t rx).all (fun s => decide (s = 0))

/-- Iteration state of the Berlekamp-Massey algorithm: current locator
`sigma`, previous correction polynomial, current register length, last
nonzero discrepancy, and shift counter. -/
structure BMState (F : Type) [Semiring F] where
  sigma : Polynomial F
  prevB : Polynomial F
  curL : Nat
  lastD : F
  shift : Nat

/-- Modelled from the spec: one Berlekamp-Massey iteration (section 4.4,
step 2), processing syndrome `n`: compute the discrepancy of `sigma` against
the syndrome sequence and, when nonzero, correct `sigma` with the shifted
previous polynomial, enlarging the register when `2L <= n`. -/
noncomputable def bmStep (F : Type) [Field F] [DecidableEq F] (S : List F)
    (st : BMState F) (n : Nat) : BMState F :=
  let d := ((List.range (st.curL + 1)).map
    (fun j => st.sigma.coeff j * S.getD (n - j) 0)).sum
  if d = 0 then
    { st with shift := st.shift + 1 }
  else if 2 * st.curL ≤ n then
    { sigma := st.sigma - C (d / st.lastD) * X ^ st.shift * st.prevB
      prevB := st.sigma
      curL := n + 1 - st.curL
      lastD := d
      shift := 1 }
  else
    { st with
        sigma := st.sigma - C (d / st.lastD) * X ^ st.shift * st.prevB
        shift := st.shift + 1 }

/-- Modelled from the spec: the error locator polynomial `σ(x)` built
iteratively from the syndrome sequence (section 4.4, step 2). -/
noncomputable def berlekampMassey (F : Type) [Field F] [DecidableEq F]
    (S : List F) : Polynomial F :=
  ((List.range S.length).foldl (bmStep F S) ⟨1, 1, 0, 1, 1⟩).sigma

/-- Modelled from the spec: Chien search (section 4.4, step 3): the bit
positions `j` in `[0, N)` for which `σ(α^(-j)) = 0`. -/
noncomputable def chienRoots (F : Type) [Field F] [DecidableEq F] (α : F)
    (N : Nat) (sigma : Polynomial F) : List Nat :=
  (List.range N).filter (fun j => decide (Polynomial.eval ((α ^ j)⁻¹) sigma = 0))

/-- Flip the received bits at the located error positions (section 4.4,
step 4); over GF(2) adding `x^j` flips coefficient `j`. -/
noncomputable def flipBits (rx : Polynomial (ZMod 2)) (locs : List Nat) :
    Polynomial (ZMod 2) :=
  rx + (locs.map (fun j => X ^ j)).sum

/-- The `K` high-order systematic bits of a codeword (section 4.4, step 5):
the quotient by `x^(N-K)`. -/
noncomputable def msgBits (r : Nat) (c : Polynomial (ZMod 2)) : Polynomial (ZMod 2) :=
  c /ₘ (X ^ r)

/-- Decoder outcome: extracted message bits, success flag, and number of
corrected bits. -/
structure DecodeOut where
  msg : Polynomial (ZMod 2)
  ok : Bool
  corrections : Nat

/-- Modelled from the spec: the hard-decision BCH decoding pipeline (section
4.4).  All-zero syndromes succeed immediately with zero corrections;
otherwise Berlekamp-Massey yields `σ`, the Chien search locates roots, a root
count different from `deg σ` fails, and after flipping the located bits a
nonzero recomputed syndrome also fails. -/
noncomputable def bchDecode (F : Type) [Field F] [Algebra (ZMod 2) F] [DecidableEq F]
    (α : F) (t N K : Nat) (rx : Polynomial (ZMod 2)) : DecodeOut :=
  if synAllZero F α t rx = true then
    ⟨msgBits (N - K) rx, true, 0⟩
  else
    let sg := berlekampMassey F (syndromesOf F α t rx)
    let locs := chienRoots F α N sg
    if locs.length ≠ sg.natDegree then
      ⟨msgBits (N - K) rx, false, 0⟩
    else
      let rx2 := flipBits rx locs
      if synAllZero F α t rx2 = true then
        ⟨msgBits (N - K) rx2, true, locs.length⟩
      else
        ⟨msgBits (N - K) rx2, false, locs.length⟩

/-- Observable state of a decoder instance, mirroring the members of
`BchDecoder` in `bench_bch.cc` (`m_K`, `m_N` plus the correction capability);
per spec section 4.4 the decoder holds no other observable state. -/
structure BchDecoderHandle where
  t : Nat
  N : Nat
  K : Nat

/-- Modelled from the spec: a decoder call returns its outcome as a plain
value and has no observable side effects (spec section 4.4), so the handle is
returned unchanged alongside the outcome. -/
noncomputable def bchDecodeCall (F : Type) [Field F] [Algebra (ZMod 2) F] [DecidableEq F]
    (α : F) (d : BchDecoderHandle) (rx : Polynomial (ZMod 2)) :
    BchDecoderHandle × DecodeOut :=
  (d, bchDecode F α d.t d.N d.K rx)

/-! ## Theorems -/

theorem nextPow2Go_eq (x k : Nat) (h1 : 2 ^ k ≤ x) (h2 : x < 2 ^ (k + 1)) :
    ∀ fuel j, j ≤ k + 1 → k + 2 - j ≤ fuel → nextPow2Go x fuel (2 ^ j) = 2 ^ (k + 1) := by
  intro fuel
  induction fuel with
  | zero => intro j hj hfuel; omega
  | succ fuel ih =>
      intro j hj hfuel
      rcases Nat.lt_or_ge j (k + 1) with hlt | hge
      · have hle : 2 ^ j ≤ x :=
          le_trans (Nat.pow_le_pow_right (by norm_num) (by omega)) h1
        have : nextPow2Go x (fuel + 1) (2 ^ j) = nextPow2Go x fuel (2 * 2 ^ j) := by
          simp [nextPow2Go, hle]
        rw [this, show 2 * 2 ^ j = 2 ^ (j + 1) by ring]
        exact ih (j + 1) (by omega) (by omega)
      · have hj' : j = k + 1 := by omega
        subst hj'
        have hgt : ¬ 2 ^ (k + 1) ≤ x := by omega
        simp [nextPow2Go, hgt]

theorem nextPowerOf2_of_range (x k : Nat) (h1 : 2 ^ k ≤ x) (h2 : x < 2 ^ (k + 1)) :
    nextPowerOf2 x = 2 ^ (k + 1) := by
  have hk : k < 2 ^ k := Nat.lt_two_pow k
  have : nextPowerOf2 x = nextPow2Go x (x + 1) (2 ^ 0) := by
    simp [nextPowerOf2]
  rw [this]
  exact nextPow2Go_eq x k h1 h2 (x + 1) 0 (by omega) (by omega)

theorem listToPoly_short :
    listToPoly [1, 1, 0, 1, 0, 1, 0, 0, 0, 0, 0, 0, 0, 0, 1]
      = 1 + X + X ^ 3 + X ^ 5 + X ^ 14 := by
  simp [listToPoly]
  ring

theorem listToPoly_normal :
    listToPoly [1, 0, 1, 1, 0, 1, 0, 0, 0, 0, 0, 0, 0, 0, 0, 0, 1]
      = 1 + X ^ 2 + X ^ 3 + X ^ 5 + X ^ 16 := by
  simp [listToPoly]
  ring

/-- C7 (counterexample): the claim fails as stated at N = 16200 (a normal
FECFRAME codeword length).  The selected primitive polynomial there has degree
m = 16, yet `init_modules` passes `next_power_of_2(16200) - 1 = 16383` as the
mother-code length, not `2 ^ 16 - 1 = 65535`. -/
theorem bch_mother_len_cex :
    bchPrimPolyDegree 16200 = 16 ∧
    motherCodeLen 16200 = 16383 ∧
    16383 ≠ 2 ^ 16 - 1 := by
  decide

/-- C7 (amended): `init_modules` selects the DVB-S2 primitive polynomial by
codeword length, `1 + x + x^3 + x^5 + x^14` (m = 14) for every N < 16200 and
`1 + x^2 + x^3 + x^5 + x^16` (m = 16) for every N ≥ 16200; the mother-code
length it passes on is `next_power_of_2(N) - 1`, which equals `2 ^ m - 1`
exactly on the range `2 ^ (m-1) ≤ N < 2 ^ m` (in particular for the
benchmark's default N = 9720). -/
theorem bch_prim_poly_selection (N1 N2 N3 N4 : Nat)
    (h1 : N1 < 16200) (h2 : 16200 ≤ N2)
    (h31 : 8192 ≤ N3) (h32 : N3 < 16384)
    (h41 : 32768 ≤ N4) (h42 : N4 < 65536) :
    listToPoly (bchPrimPoly N1) = 1 + X + X ^ 3 + X ^ 5 + X ^ 14 ∧
    bchPrimPolyDegree N1 = 14 ∧
    listToPoly (bchPrimPoly N2) = 1 + X ^ 2 + X ^ 3 + X ^ 5 + X ^ 16 ∧
    bchPrimPolyDegree N2 = 16 ∧
    motherCodeLen N3 = 2 ^ 14 - 1 ∧
    motherCodeLen N4 = 2 ^ 16 - 1 ∧
    motherCodeLen 9720 = 2 ^ 14 - 1 := by
  have e1 : bchPrimPoly N1 = [1, 1, 0, 1, 0, 1, 0, 0, 0, 0, 0, 0, 0, 0, 1] := by
    simp [bchPrimPoly, h1]
  have e2 : bchPrimPoly N2 = [1, 0, 1, 1, 0, 1, 0, 0, 0, 0, 0, 0, 0, 0, 0, 0, 1] := by
    have : ¬ N2 < 16200 := by omega
    simp [bchPrimPoly, this]
  refine ⟨?_, ?_, ?_, ?_, ?_, ?_, ?_⟩
  · rw [e1]; exact listToPoly_short
  · rw [bchPrimPolyDegree, e1]; rfl
  · rw [e2]; exact listToPoly_normal
  · rw [bchPrimPolyDegree, e2]; rfl
  · rw [motherCodeLen, nextPowerOf2_of_range N3 13 (by norm_num; omega) (by norm_num; omega)]
  · rw [motherCodeLen, nextPowerOf2_of_range N4 15 (by norm_num; omega) (by norm_num; omega)]
  · decide

/-- Witness for `bch_prim_poly_selection` at the benchmark's default short
FECFRAME length N = 9720 and the normal length N = 38880. -/
theorem bch_prim_poly_selection_witness :
    listToPoly (bchPrimPoly 9720) = 1 + X + X ^ 3 + X ^ 5 + X ^ 14 ∧
    bchPrimPolyDegree 9720 = 14 ∧
    listToPoly (bchPrimPoly 38880) = 1 + X ^ 2 + X ^ 3 + X ^ 5 + X ^ 16 ∧
    bchPrimPolyDegree 38880 = 16 ∧
    motherCodeLen 9720 = 2 ^ 14 - 1 ∧
    motherCodeLen 38880 = 2 ^ 16 - 1 ∧
    motherCodeLen 9720 = 2 ^ 14 - 1 :=
  bch_prim_poly_selection 9720 38880 9720 38880 (by decide) (by decide)
    (by decide) (by decide) (by decide) (by decide)

/-- C10: when `estimate_coarse` is called with `full = false`, the `plsc`
argument has no effect: on identical input buffers and identical prior state,
both the returned flag and the entire resulting state are identical for any
two PLSC values. -/
theorem estimate_coarse_plsc_independent (refs : FreqSyncRefs) (s : FreqSyncState)
    (inp : List ℂ) (plsc1 plsc2 : Nat) :
    estimate_coarse refs s inp false plsc1 = estimate_coarse refs s inp false plsc2 :=
  rfl

theorem runOp_coarse_corrected_mono (refs : FreqSyncRefs) (s : FreqSyncState)
    (op : FSOp) (h : s.coarse_corrected = true) :
    (runOp refs s op).coarse_corrected = true := by
  cases op with
  | coarse inp full plsc =>
      simp only [runOp, estimate_coarse]
      split
      · simp [h]
      · simpa using h
  | sofPhase inp => exact h
  | plheaderPhase inp plsc => simpa [runOp, estimate_plheader_phase] using h
  | pilotPhase inp i_blk => simpa [runOp, estimate_pilot_phase] using h
  | finePilot n =>
      simp only [runOp, estimate_fine_pilot_mode]
      split
      · simpa using h
      · simpa using h
  | derot inp ol => simpa [runOp, derotate_plheader] using h

theorem runOps_coarse_corrected_mono (refs : FreqSyncRefs) (ops : List FSOp) :
    ∀ s : FreqSyncState, s.coarse_corrected = true →
      (runOps refs s ops).coarse_corrected = true := by
  induction ops with
  | nil => intro s h; exact h
  | cons op ops ih =>
      intro s h
      exact ih (runOp refs s op) (runOp_coarse_corrected_mono refs s op h)

/-- C4: the `coarse_corrected` flag starts false in the freshly constructed
synchronizer, becomes true on a coarse update whose estimate magnitude is
below `fine_foffset_corr_range = 3.268e-4`, and once true it stays true under
every subsequent sequence of public operations (it latches; nothing but an
external reset clears it). -/
theorem coarse_corrected_latching (refs : FreqSyncRefs) (period : Nat)
    (su s : FreqSyncState) (inp : List ℂ) (full : Bool) (plsc : Nat)
    (ops : List FSOp)
    (hupd : su.i_frame + 1 = su.period)
    (hv : |coarseEstimateValue refs su inp full plsc| < fine_foffset_corr_range)
    (hs : s.coarse_corrected = true) :
    (initState period).coarse_corrected = false ∧
    (estimate_coarse refs su inp full plsc).1.coarse_corrected = true ∧
    (runOps refs s ops).coarse_corrected = true := by
  refine ⟨rfl, ?_, runOps_coarse_corrected_mono refs ops s hs⟩
  simp only [coarseEstimateValue] at hv
  simp [estimate_coarse, if_pos hupd, decide_eq_true hv]

/-- Witness for `coarse_corrected_latching`: a period-1 synchronizer whose
empty-frame estimate is 0, and a latched state followed by one operation. -/
theorem coarse_corrected_latching_witness :
    (initState 1).coarse_corrected = false ∧
    (estimate_coarse refsTrivial (initState 1) [] false 0).1.coarse_corrected = true ∧
    (runOps refsTrivial sLatched [FSOp.sofPhase []]).coarse_corrected = true :=
  coarse_corrected_latching refsTrivial 1 (initState 1) sLatched [] false 0
    [FSOp.sofPhase []] rfl
    (by
      simp [coarseEstimateValue, coarseAccum, coarseEstOf, lag1Autocorr, derotated,
        initState, refsTrivial]
      rw [fine_foffset_corr_range]
      norm_num)
    rfl

theorem estimate_coarse_result_pos (refs : FreqSyncRefs) (s : FreqSyncState)
    (inp : List ℂ) (full : Bool) (plsc : Nat) (h : s.i_frame + 1 = s.period) :
    estimate_coarse refs s inp full plsc
      = ({ s with
            i_frame := 0
            pilot_corr := coarseAccum refs s inp full plsc
            coarse_foffset := coarseEstOf (coarseAccum refs s inp full plsc)
            coarse_corrected := s.coarse_corrected
              || decide (|coarseEstOf (coarseAccum refs s inp full plsc)|
                  < fine_foffset_corr_range) },
          true) := by
  simp only [estimate_coarse]
  rw [if_pos h]

theorem estimate_coarse_result_neg (refs : FreqSyncRefs) (s : FreqSyncState)
    (inp : List ℂ) (full : Bool) (plsc : Nat) (h : ¬ s.i_frame + 1 = s.period) :
    estimate_coarse refs s inp full plsc
      = ({ s with i_frame := s.i_frame + 1, pilot_corr := coarseAccum refs s inp full plsc },
          false) := by
  simp only [estimate_coarse]
  rw [if_neg h]

theorem succ_mod_of_wrap (k period : Nat) (h : k % period + 1 = period) :
    (k + 1) % period = 0 := by
  have h1 := Nat.div_add_mod k period
  have h2 : k + 1 = period * (k / period + 1) := by
    rw [Nat.mul_add, Nat.mul_one]; omega
  rw [h2]
  exact Nat.mul_mod_right _ _

theorem succ_mod_of_no_wrap (k period : Nat) (hp : 0 < period)
    (h : k % period + 1 ≠ period) :
    (k + 1) % period = k % period + 1 := by
  have h1 := Nat.div_add_mod k period
  have hlt : k % period < period := Nat.mod_lt k hp
  have h2 : k + 1 = period * (k / period) + (k % period + 1) := by omega
  rw [h2, Nat.mul_add_mod]
  exact Nat.mod_eq_of_lt (by omega)

theorem coarseCallState_period_iframe (refs : FreqSyncRefs) (period : Nat)
    (ins : Nat → List ℂ × Bool × Nat) (hp : 0 < period) (k : Nat) :
    (coarseCallState refs period ins k).period = period ∧
    (coarseCallState refs period ins k).i_frame = k % period := by
  induction k with
  | zero => exact ⟨rfl, (Nat.zero_mod period).symm⟩
  | succ k ih =>
      obtain ⟨hper, hif⟩ := ih
      have hstate : coarseCallState refs period ins (k + 1)
          = (estimate_coarse refs (coarseCallState refs period ins k)
              (ins k).1 (ins k).2.1 (ins k).2.2).1 := rfl
      by_cases hc : (coarseCallState refs period ins k).i_frame + 1
          = (coarseCallState refs period ins k).period
      · have hceq : k % period + 1 = period := by rw [hif, hper] at hc; exact hc
        rw [hstate, estimate_coarse_result_pos _ _ _ _ _ hc]
        exact ⟨hper, (succ_mod_of_wrap k period hceq).symm⟩
      · have hcne : k % period + 1 ≠ period := by
          intro h; exact hc (by rw [hif, hper, h])
        rw [hstate, estimate_coarse_result_neg _ _ _ _ _ hc]
        refine ⟨hper, ?_⟩
        show (coarseCallState refs period ins k).i_frame + 1 = (k + 1) % period
        rw [hif, succ_mod_of_no_wrap k period hp hcne]

theorem coarseCall_cond_iff (refs : FreqSyncRefs) (period : Nat)
    (ins : Nat → List ℂ × Bool × Nat) (hp : 0 < period) (k : Nat) :
    ((coarseCallState refs period ins k).i_frame + 1
        = (coarseCallState refs period ins k).period) ↔ period ∣ (k + 1) := by
  obtain ⟨hper, hif⟩ := coarseCallState_period_iframe refs period ins hp k
  rw [hif, hper]
  have h1 := Nat.div_add_mod k period
  constructor
  · intro h
    exact ⟨k / period + 1, by rw [Nat.mul_add, Nat.mul_one]; omega⟩
  · rintro ⟨m, hm⟩
    have hmlt : k % period < period := Nat.mod_lt k hp
    have hdvd2 : period ∣ (k % period + 1) := by
      have ha : period ∣ (k + 1) := ⟨m, hm⟩
      have hb : period ∣ period * (k / period) := Dvd.intro _ rfl
      have hsub := Nat.dvd_sub' ha hb
      have heq : k + 1 - period * (k / period) = k % period + 1 := by omega
      rwa [heq] at hsub
    have := Nat.le_of_dvd (by omega) hdvd2
    omega

/-- C5: starting from a freshly constructed synchronizer with positive
`period`, the `(k+1)`-th `estimate_coarse` call returns true exactly when
`period` divides `k + 1` (every `period`-th accumulation); the frame counter
always equals the number of calls modulo `period` (it wraps exactly on the
`period`-th accumulation); and on all other calls `coarse_foffset` is left
untouched, so the coarse estimate is refreshed exactly once every `period`
frames. -/
theorem estimate_coarse_periodicity (refs : FreqSyncRefs) (period : Nat)
    (ins : Nat → List ℂ × Bool × Nat) (hp : 0 < period) (k : Nat) :
    (coarseCallState refs period ins k).i_frame = k % period ∧
    (coarseCallRet refs period ins k = true ↔ period ∣ (k + 1)) ∧
    (¬ period ∣ (k + 1) →
      (coarseCallState refs period ins (k + 1)).coarse_foffset
        = (coarseCallState refs period ins k).coarse_foffset) := by
  obtain ⟨hper, hif⟩ := coarseCallState_period_iframe refs period ins hp k
  have hcond := coarseCall_cond_iff refs period ins hp k
  have hret : coarseCallRet refs period ins k
      = (estimate_coarse refs (coarseCallState refs period ins k)
          (ins k).1 (ins k).2.1 (ins k).2.2).2 := rfl
  have hstate : coarseCallState refs period ins (k + 1)
      = (estimate_coarse refs (coarseCallState refs period ins k)
          (ins k).1 (ins k).2.1 (ins k).2.2).1 := rfl
  refine ⟨hif, ?_, ?_⟩
  · by_cases hc : (coarseCallState refs period ins k).i_frame + 1
        = (coarseCallState refs period ins k).period
    · rw [hret, estimate_coarse_result_pos _ _ _ _ _ hc]
      simpa using hcond.mp hc
    · rw [hret, estimate_coarse_result_neg _ _ _ _ _ hc]
      constructor
      · intro h; simp at h
      · intro hd; exact absurd (hcond.mpr hd) hc
  · intro hnd
    have hc : ¬ (coarseCallState refs period ins k).i_frame + 1
        = (coarseCallState refs period ins k).period := fun h => hnd (hcond.mp h)
    rw [hstate, estimate_coarse_result_neg _ _ _ _ _ hc]

/-- Witness for `estimate_coarse_periodicity` with `period = 1` at the first
call. -/
theorem estimate_coarse_periodicity_witness :
    (coarseCallState refsTrivial 1 insTrivial 0).i_frame = 0 % 1 ∧
    (coarseCallRet refsTrivial 1 insTrivial 0 = true ↔ 1 ∣ (0 + 1)) ∧
    (¬ 1 ∣ (0 + 1) →
      (coarseCallState refsTrivial 1 insTrivial (0 + 1)).coarse_foffset
        = (coarseCallState refsTrivial 1 insTrivial 0).coarse_foffset) :=
  estimate_coarse_periodicity refsTrivial 1 insTrivial (by decide) 0

/-- C6: `estimate_fine_pilot_mode` requires `coarse_corrected`, at least one
pilot block, and `angle_pilot[0..n_pilot_blks]` populated for the current
frame; violating the precondition is the fatal programmer-error outcome
(modelled `none`), while under the precondition the call refreshes
`fine_foffset`, sets `fine_est_ready`, and `has_fine_foffset_est` returns
true afterwards. -/
theorem estimate_fine_pilot_mode_contract (s : FreqSyncState) (n : Nat) :
    (¬ (s.coarse_corrected = true ∧ 1 ≤ n ∧ n ≤ s.pilots_populated
        ∧ s.plheader_populated = true) →
      estimate_fine_pilot_mode s n = none) ∧
    ((s.coarse_corrected = true ∧ 1 ≤ n ∧ n ≤ s.pilots_populated
        ∧ s.plheader_populated = true) →
      estimate_fine_pilot_mode s n
        = some { s with
            fine_foffset := fineEstimateValue (s.angle_pilot.take (n + 1))
            fine_est_ready := true } ∧
      has_fine_foffset_est ((estimate_fine_pilot_mode s n).getD s) = true) := by
  constructor
  · intro h
    simp only [estimate_fine_pilot_mode]
    rw [if_neg h]
  · intro h
    have he : estimate_fine_pilot_mode s n
        = some { s with
            fine_foffset := fineEstimateValue (s.angle_pilot.take (n + 1))
            fine_est_ready := true } := by
      simp only [estimate_fine_pilot_mode]
      rw [if_pos h]
    exact ⟨he, by rw [he]; rfl⟩

/-- Witness for `estimate_fine_pilot_mode_contract`: the fresh state violates
the precondition (fatal, `none`); `sFineReady` satisfies it and the fine
estimate becomes available. -/
theorem estimate_fine_pilot_mode_contract_witness :
    estimate_fine_pilot_mode (initState 1) 1 = none ∧
    estimate_fine_pilot_mode sFineReady 1
      = some { sFineReady with
          fine_foffset := fineEstimateValue (sFineReady.angle_pilot.take 2)
          fine_est_ready := true } ∧
    has_fine_foffset_est ((estimate_fine_pilot_mode sFineReady 1).getD sFineReady) = true :=
  ⟨(estimate_fine_pilot_mode_contract (initState 1) 1).1 (by simp [initState]),
    ((estimate_fine_pilot_mode_contract sFineReady 1).2
      ⟨rfl, by decide, by decide, rfl⟩).1,
    ((estimate_fine_pilot_mode_contract sFineReady 1).2
      ⟨rfl, by decide, by decide, rfl⟩).2⟩

/-- C8: the pilot-phase buffer layout.  `estimate_pilot_phase` with block
index `i_blk` stores into `angle_pilot[i_blk + 1]`, `estimate_plheader_phase`
stores into `angle_pilot[0]`, and the inline accessors of `pl_freq_sync.h`
agree with this layout: `get_plheader_phase` reads `angle_pilot[0]` and
`get_pilot_phase(i_blk)` reads `angle_pilot[i_blk + 1]`, so each accessor
returns the value just stored. -/
theorem angle_pilot_layout (refs : FreqSyncRefs) (s : FreqSyncState)
    (inp : List ℂ) (plsc i_blk : Nat)
    (h1 : i_blk + 1 < s.angle_pilot.length) (h0 : 0 < s.angle_pilot.length) :
    (estimate_pilot_phase refs s inp i_blk).angle_pilot
      = s.angle_pilot.set (i_blk + 1) (pilotBlockPhase refs inp i_blk) ∧
    (estimate_plheader_phase refs s inp plsc).1.angle_pilot
      = s.angle_pilot.set 0 (phaseOf (refs.plheaderRef plsc) inp) ∧
    get_plheader_phase s = s.angle_pilot.getD 0 0 ∧
    get_pilot_phase s i_blk = s.angle_pilot.getD (i_blk + 1) 0 ∧
    get_pilot_phase (estimate_pilot_phase refs s inp i_blk) i_blk
      = pilotBlockPhase refs inp i_blk ∧
    get_plheader_phase (estimate_plheader_phase refs s inp plsc).1
      = phaseOf (refs.plheaderRef plsc) inp := by
  refine ⟨rfl, rfl, rfl, rfl, ?_, ?_⟩
  · simp [get_pilot_phase, estimate_pilot_phase, List.getD, List.getElem?_set_self', h1]
  · simp [get_plheader_phase, estimate_plheader_phase, List.getD,
      List.getElem?_set_self', h0]

/-- Witness for `angle_pilot_layout` on a 23-entry buffer at the maximum
documented block index 21. -/
theorem angle_pilot_layout_witness :
    (estimate_pilot_phase refsTrivial sPilot23 [] 21).angle_pilot
      = sPilot23.angle_pilot.set 22 (pilotBlockPhase refsTrivial [] 21) ∧
    (estimate_plheader_phase refsTrivial sPilot23 [] 0).1.angle_pilot
      = sPilot23.angle_pilot.set 0 (phaseOf (refsTrivial.plheaderRef 0) []) ∧
    get_plheader_phase sPilot23 = sPilot23.angle_pilot.getD 0 0 ∧
    get_pilot_phase sPilot23 21 = sPilot23.angle_pilot.getD 22 0 ∧
    get_pilot_phase (estimate_pilot_phase refsTrivial sPilot23 [] 21) 21
      = pilotBlockPhase refsTrivial [] 21 ∧
    get_plheader_phase (estimate_plheader_phase refsTrivial sPilot23 [] 0).1
      = phaseOf (refsTrivial.plheaderRef 0) [] :=
  angle_pilot_layout refsTrivial sPilot23 [] 0 21
    (by simp [sPilot23, initState]) (by simp [sPilot23, initState])

/-- C9 (counterexample): with the `angle_pilot[0..21]` buffer declared by the
spec's data model (22 entries, as allocated by `initState`), the unchecked
read `angle_pilot[i_blk + 1]` performed by `get_pilot_phase` is out of bounds
at the maximum documented block index `i_blk = 21`, since it touches index 22. -/
theorem get_pilot_phase_oob_cex :
    (initState 10).angle_pilot.length = 22 ∧
    ¬ pilotPhaseReadInBounds (initState 10) 21 := by
  constructor
  · simp [initState]
  · simp [pilotPhaseReadInBounds, initState]

/-- C9 (amended): for every documented block index `i_blk` in 0..21, the
unchecked read `angle_pilot[i_blk + 1]` of `get_pilot_phase` is within bounds
provided the `angle_pilot` buffer holds 23 entries (PLHEADER phase at index 0
plus up to 22 pilot-block phases at indices 1..22), rather than the 22 entries
declared by the spec's data model. -/
theorem get_pilot_phase_in_bounds (s : FreqSyncState) (i_blk : Nat)
    (hlen : s.angle_pilot.length = 23) (hi : i_blk ≤ 21) :
    pilotPhaseReadInBounds s i_blk := by
  rw [pilotPhaseReadInBounds, hlen]
  omega

/-- Witness for `get_pilot_phase_in_bounds` at the maximum documented index. -/
theorem get_pilot_phase_in_bounds_witness :
    pilotPhaseReadInBounds sPilot23 21 :=
  get_pilot_phase_in_bounds sPilot23 21 (by simp [sPilot23, initState]) (by decide)

theorem add_self_poly (f : Polynomial (ZMod 2)) : f + f = 0 := by
  have h11 : (1 + 1 : Polynomial (ZMod 2)) = 0 := by
    rw [← C_1, ← C_add, show (1 + 1 : ZMod 2) = 0 from by decide, C_0]
  calc f + f = (1 + 1) * f := by ring
  _ = 0 := by rw [h11, zero_mul]

theorem bchEncode_eq (g m : Polynomial (ZMod 2)) (r : Nat) (hmon : g.Monic) :
    bchEncode g r m = g * (-(X ^ r * m /ₘ g)) := by
  rw [bchEncode, modByMonic_eq_sub_mul_div _ hmon]
  linear_combination add_self_poly (X ^ r * m)

theorem msg_extract (g m : Polynomial (ZMod 2)) (r : Nat) (hmon : g.Monic)
    (hdeg : g.natDegree = r) :
    msgBits r (bchEncode g r m) = m := by
  have hlt : ((X ^ r * m) %ₘ g).degree < (X ^ r : Polynomial (ZMod 2)).degree := by
    rw [degree_X_pow]
    calc ((X ^ r * m) %ₘ g).degree < g.degree := degree_modByMonic_lt _ hmon
    _ = (r : WithBot ℕ) := by rw [degree_eq_natDegree hmon.ne_zero, hdeg]
  have h : bchEncode g r m /ₘ (X ^ r) = m
      ∧ bchEncode g r m %ₘ (X ^ r) = (X ^ r * m) %ₘ g :=
    div_modByMonic_unique m ((X ^ r * m) %ₘ g) (monic_X_pow r)
      ⟨by rw [bchEncode]; ring, hlt⟩
  exact h.1

theorem encode_syndromes_zero (F : Type) [Field F] [Algebra (ZMod 2) F] [DecidableEq F]
    (α : F) (t : Nat) (g m : Polynomial (ZMod 2)) (r : Nat) (hmon : g.Monic)
    (hroots : ∀ i ∈ oddIdxs t, aeval (α ^ i) g = 0) :
    synAllZero F α t (bchEncode g r m) = true := by
  rw [synAllZero, List.all_eq_true]
  intro s hs
  rw [syndromesOf, List.mem_map] at hs
  obtain ⟨i, hi, rfl⟩ := hs
  rw [decide_eq_true_eq, bchEncode_eq g m r hmon, map_mul, hroots i hi, zero_mul]

/-- C1: for every message `m`, decoding the noise-free encoding of `m` under
any parameter tuple `(N, K, t)` whose generator polynomial satisfies the
spec's invariants (monic of degree `N - K` with the odd powers
`α, α^3, ..., α^(2t-1)` among its roots, as every tuple of the DVB-S2 table
does by section 3) returns exactly `(m, ok = true)` with zero corrections;
`bchEncode` is a total function of its input and cannot fail. -/
theorem bch_encode_decode_roundtrip (F : Type) [Field F] [Algebra (ZMod 2) F]
    [DecidableEq F] (α : F) (t N K : Nat) (g m : Polynomial (ZMod 2))
    (hmon : g.Monic) (hdeg : g.natDegree = N - K)
    (hroots : ∀ i ∈ oddIdxs t, aeval (α ^ i) g = 0) :
    bchDecode F α t N K (bchEncode g (N - K) m) = ⟨m, true, 0⟩ := by
  have hz := encode_syndromes_zero F α t g m (N - K) hmon hroots
  rw [bchDecode, if_pos hz, msg_extract g m (N - K) hmon hdeg]

/-- Witness for `bch_encode_decode_roundtrip`: the degenerate parity code
`g = x + 1` with `N = 2`, `K = 1`, `t = 1` over `GF(2)` with `α = 1`, message
`m = x`. -/
theorem bch_encode_decode_roundtrip_witness :
    bchDecode (ZMod 2) 1 1 2 1 (bchEncode (X + 1) 1 X) = ⟨X, true, 0⟩ :=
  bch_encode_decode_roundtrip (ZMod 2) 1 1 2 1 (X + 1) X
    (by simpa using monic_X_add_C (1 : ZMod 2))
    (by simpa using natDegree_X_add_C (1 : ZMod 2))
    (by
      intro i hi
      simp only [oddIdxs, List.mem_map, List.mem_range] at hi
      obtain ⟨k, hk, rfl⟩ := hi
      simp [one_pow]
      decide)

/-- C3: the decoder reports failure through its ordinary return value exactly
when the initial syndromes are nonzero and either the Chien search finds a
number of roots different from the degree of the Berlekamp-Massey locator or
a recomputed syndrome after bit correction is nonzero; and a decoder call
never mutates the decoder's observable state, so failure outcomes are
atomic. -/
theorem bch_decode_failure_conditions (F : Type) [Field F] [Algebra (ZMod 2) F]
    [DecidableEq F] (α : F) (d : BchDecoderHandle) (rx : Polynomial (ZMod 2)) :
    ((bchDecode F α d.t d.N d.K rx).ok = false ↔
      (synAllZero F α d.t rx = false ∧
        ((chienRoots F α d.N (berlekampMassey F (syndromesOf F α d.t rx))).length
            ≠ (berlekampMassey F (syndromesOf F α d.t rx)).natDegree ∨
          synAllZero F α d.t
            (flipBits rx (chienRoots F α d.N
              (berlekampMassey F (syndromesOf F α d.t rx)))) = false))) ∧
    (bchDecodeCall F α d rx).1 = d := by
  refine ⟨?_, rfl⟩
  by_cases h0 : synAllZero F α d.t rx = true
  · rw [bchDecode, if_pos h0]
    simp [h0]
  · have h0' : synAllZero F α d.t rx = false := by
      rwa [Bool.not_eq_true] at h0
    rw [bchDecode, if_neg h0]
    by_cases h1 : (chienRoots F α d.N
        (berlekampMassey F (syndromesOf F α d.t rx))).length
        = (berlekampMassey F (syndromesOf F α d.t rx)).natDegree
    · by_cases h2 : synAllZero F α d.t (flipBits rx (chienRoots F α d.N
          (berlekampMassey F (syndromesOf F α d.t rx)))) = true
      · rw [if_neg (not_not_intro h1), if_pos h2]
        simp [h0', h1, h2]
      · have h2' : synAllZero F α d.t (flipBits rx (chienRoots F α d.N
            (berlekampMassey F (syndromesOf F α d.t rx)))) = false := by
          rwa [Bool.not_eq_true] at h2
        rw [if_neg (not_not_intro h1), if_neg h2]
        simp [h0', h2']
    · rw [if_pos h1]
      simp [h0', h1]

